import Mathlib

/-!
Shallow embedding of `tint/tint.py` (class `TintRegistry`): registration
(`add_colors`, lines 152-159), fuzzy name matching (`match_name`, lines
179-194) and perceptual nearest-neighbour search (`find_nearest`, lines
226-264), together with the hex decoding helpers `_hex_to_rgb` and
`_hex_to_lab` (lines 59-66).

Modelling conventions:
* Python dicts are association lists kept in insertion order; assignment to
  an existing key keeps its position (`dinsert`), new keys are appended at
  the end, and lookup (`dlookup`) finds the unique entry of a key.
* External collaborators are parameters of the definitions: the ICU
  `nfkc_cf` normalizer (`normalize`), the colormath sRGB-to-Lab conversion
  (`rgbToLab`, over an abstract type `Lab`), the CIEDE2000 distance
  (`delta`, valued in `ℚ`, standing in for IEEE doubles), and the two
  fuzzywuzzy `process.extract` calls of `match_name` (`es` for the
  token-set scorer, `estd` for the default scorer).
* colormath `LabColor` objects define no `__eq__`/`__hash__`, so as dict
  keys they have identity semantics and every `_hex_to_lab` call produces a
  fresh key: `_colors_by_system_lab[system][lab] = name` and the
  mapping-filter dict of `find_nearest` only ever append.  The embedding
  therefore keeps those dicts as plain lists of pairs that grow at the end.
* A raised Python exception is an explicit `PyError` value in the result.
* `str.lower` / `str.strip` are `pyLower` / `pyStrip`; `sys.float_info.max`
  is the exact rational value of the largest finite IEEE double.
-/

/-- Lookup in a Python dict rendered as an association list (unique keys):
the value of the first (only) entry with the given key. -/
def dlookup {α β : Type} [DecidableEq α] : List (α × β) → α → Option β
  | [], _ => none
  | p :: rest, k => if p.1 = k then some p.2 else dlookup rest k

/-- Python dict assignment `d[k] = v`: overwrite in place if the key exists,
otherwise append the new entry at the end. -/
def dinsert {α β : Type} [DecidableEq α] (k : α) (v : β) : List (α × β) → List (α × β)
  | [] => [(k, v)]
  | p :: rest => if p.1 = k then (k, v) :: rest else p :: dinsert k v rest

/-- `str.lower` on the character list (Basic Latin, as exercised here). -/
def lowerL (l : List Char) : List Char := l.map Char.toLower

/-- `str.strip` on the character list: drop leading and trailing whitespace. -/
def stripL (l : List Char) : List Char :=
  ((l.dropWhile Char.isWhitespace).reverse.dropWhile Char.isWhitespace).reverse

/-- `s.lower()`. -/
def pyLower (s : String) : String := String.mk (lowerL s.data)

/-- `s.strip()`. -/
def pyStrip (s : String) : String := String.mk (stripL s.data)

/-- `s.lower().strip()`, the normal form `add_colors` and `find_nearest`
apply to names and hex codes (tint.py lines 153-154 and 232). -/
def pyNorm (s : String) : String := pyStrip (pyLower s)

/-- Value of one hexadecimal digit, as accepted by `str.decode("hex")`. -/
def hexDigitVal (c : Char) : Option Nat :=
  if '0' ≤ c ∧ c ≤ '9' then some (c.toNat - '0'.toNat)
  else if 'a' ≤ c ∧ c ≤ 'f' then some (c.toNat - 'a'.toNat + 10)
  else if 'A' ≤ c ∧ c ≤ 'F' then some (c.toNat - 'A'.toNat + 10)
  else none

/-- `hex_code.decode("hex")` (Python 2): pairs of hex digits to bytes;
`none` models the TypeError raised on an odd-length string or a
non-hexadecimal character. -/
def decodeHexL : List Char → Option (List Nat)
  | [] => some []
  | [_] => none
  | a :: b :: rest =>
    match hexDigitVal a, hexDigitVal b, decodeHexL rest with
    | some ha, some hb, some r => some ((16 * ha + hb) :: r)
    | _, _, _ => none

/-- `_hex_to_rgb` followed by the arity check of `sRGBColor(*rgb_values)`:
the decoded byte string must hold exactly three bytes, otherwise the
construction of the colour object raises (tint.py lines 59-65). -/
def hexToRgbM (s : String) : Option (Nat × Nat × Nat) :=
  match decodeHexL s.data with
  | some [r, g, b] => some (r, g, b)
  | _ => none

/-- `_hex_to_lab` (tint.py lines 63-66): decode the hex code and convert the
sRGB triple with the external colormath conversion `rgbToLab`; `none` models
the TypeError raised inside the conversion step for a malformed hex code. -/
def hexToLabM {Lab : Type} (rgbToLab : Nat × Nat × Nat → Lab) (s : String) : Option Lab :=
  (hexToRgbM s).map rgbToLab

/-- The three indexes owned by `TintRegistry.__init__`:
`_colors_by_system_hex`, `_colors_by_system_lab` and `_hex_by_color`. -/
structure Registry (Lab : Type) where
  sysHex : List (String × List (String × String))
  sysLab : List (String × List (Lab × String))
  hexByColor : List (String × String)
  deriving DecidableEq

/-- A registry with no registered colours (`TintRegistry(load_defaults=False)`). -/
def emptyReg {Lab : Type} : Registry Lab := Registry.mk [] [] []

/-- In-place update of the inner dict stored under an (existing) system key. -/
def updSys {α : Type} (sys : String) (f : α → α) : List (String × α) → List (String × α)
  | [] => []
  | p :: rest => if p.1 = sys then (p.1, f p.2) :: rest else p :: updSys sys f rest

/-- tint.py lines 148-150: create the empty per-system dicts on first use. -/
def ensureSystem {Lab : Type} (sys : String) (reg : Registry Lab) : Registry Lab :=
  if (dlookup reg.sysHex sys).isSome then reg
  else Registry.mk (reg.sysHex ++ [(sys, [])]) (reg.sysLab ++ [(sys, [])]) reg.hexByColor

/-- The Python exceptions the embedded fragment can raise, separated by
raise site (the two TypeErrors carry different messages in the source). -/
inductive PyError : Type
  | typeErrorNeedSystem
  | typeErrorHexDecode
  | keyError (key : String)
  | indexError
  deriving DecidableEq

/-- One iteration of the `add_colors` loop (tint.py lines 152-159): normalize
the pair, convert the hex code, then update all three indexes.  `none` models
the exception escaping from `_hex_to_lab`, raised before any index is touched
for this pair. -/
def addPair {Lab : Type} (normalize : String → String) (rgbToLab : Nat × Nat × Nat → Lab)
    (sys : String) (reg : Registry Lab) (p : String × String) : Option (Registry Lab) :=
  let name := pyNorm p.1
  let hex := pyNorm p.2
  match hexToLabM rgbToLab hex with
  | none => none
  | some lab =>
    some (Registry.mk
      (updSys sys (fun m => dinsert hex name m) reg.sysHex)
      (updSys sys (fun m => m ++ [(lab, name)]) reg.sysLab)
      (dinsert (normalize name) hex reg.hexByColor))

/-- The `for color_name, hex_code in colors` loop of `add_colors`: pairs are
processed in order, and an exception aborts the loop leaving the registry as
the already-processed pairs built it. -/
def addLoop {Lab : Type} (normalize : String → String) (rgbToLab : Nat × Nat × Nat → Lab)
    (sys : String) : List (String × String) → Registry Lab → Registry Lab × Option PyError
  | [], reg => (reg, none)
  | p :: rest, reg =>
    match addPair normalize rgbToLab sys reg p with
    | none => (reg, some PyError.typeErrorHexDecode)
    | some reg2 => addLoop normalize rgbToLab sys rest reg2

/-- `add_colors(system, colors)` for an already-parsed sequence of
(name, hex) pairs (the file/mapping/sequence dispatch of lines 137-146 is
input adaptation outside the registration core). -/
def addColors {Lab : Type} (normalize : String → String) (rgbToLab : Nat × Nat × Nat → Lab)
    (sys : String) (colors : List (String × String)) (reg : Registry Lab) :
    Registry Lab × Option PyError :=
  addLoop normalize rgbToLab sys colors (ensureSystem sys reg)

/-- Outcome of `match_name`: a `MatchResult(hex_code, score)` or a raised
exception. -/
inductive MatchRet : Type
  | ok (hexCode : String) (score : Nat)
  | raised (e : PyError)
  deriving DecidableEq

/-- `dict(pairs)`: fold the pairs into a dict, later duplicates overwriting
earlier ones. -/
def dictOf (l : List (String × Nat)) : List (String × Nat) :=
  l.foldl (fun d p => dinsert p.1 p.2 d) []

/-- One step of `Counter.update`: add the count to an existing entry, or
append the key as a new entry. -/
def counterAdd : List (String × Nat) → String × Nat → List (String × Nat)
  | [], p => [p]
  | q :: rest, p => if q.1 = p.1 then (q.1, q.2 + p.2) :: rest else q :: counterAdd rest p

/-- `Counter(c).update(Counter(d))`: add the counts of `d` into `c`
(tint.py lines 191-192). -/
def counterMerge (c d : List (String × Nat)) : List (String × Nat) := d.foldl counterAdd c

/-- Score a dict assigns to a key, absent keys counting as 0. -/
def lookupScore (l : List (String × Nat)) (k : String) : Nat := (dlookup l k).getD 0

/-- `counter.most_common(1)` head: an entry with maximal count, the first
one in iteration order on ties; `none` on an empty counter, where the
subscript `[0]` of line 193 raises IndexError. -/
def mostCommon1 (c : List (String × Nat)) : Option (String × Nat) :=
  c.foldl (fun acc p =>
    match acc with
    | none => some p
    | some q => if q.2 < p.2 then some p else some q) none

/-- `match_name` (tint.py lines 179-194).  `es` and `estd` stand for the two
external `process.extract` calls (token-set scorer and default scorer); each
returns scored candidates drawn from the given choice list. -/
def matchName {Lab : Type} (normalize : String → String)
    (es estd : String → List String → List (String × Nat))
    (reg : Registry Lab) (inStr : String) : MatchRet :=
  let s := normalize inStr
  match dlookup reg.hexByColor s with
  | some hx => MatchRet.ok hx 100
  | none =>
    let keys := reg.hexByColor.map Prod.fst
    let counter := counterMerge (dictOf (es s keys)) (dictOf (estd s keys))
    match mostCommon1 counter with
    | none => MatchRet.raised PyError.indexError
    | some nc =>
      match dlookup reg.hexByColor nc.1 with
      | none => MatchRet.raised (PyError.keyError nc.1)
      | some hx => MatchRet.ok hx (nc.2 / 2)

/-- The `filter_set` argument of `find_nearest`: absent, an iterable of
names, or a hex-to-name mapping. -/
inductive FilterSet : Type
  | nofilter
  | names (l : List String)
  | mapping (m : List (String × String))
  deriving DecidableEq

/-- `isinstance(filter_set, collections.Mapping)`. -/
def FilterSet.isMapping : FilterSet → Bool
  | FilterSet.mapping _ => true
  | _ => false

/-- Outcome of `find_nearest`: a `FindResult(color_name, distance)`, the
bare name string returned by the mapping fast path of line 236, or a raised
exception. -/
inductive NearRet : Type
  | found (colorName : Option String) (distance : ℚ)
  | rawName (s : String)
  | raised (e : PyError)
  deriving DecidableEq

/-- `sys.float_info.max`, the largest finite IEEE double, as an exact
rational: the integer value of `2 ^ 1024 - 2 ^ 971` (see `floatMax_eq`). -/
def floatMax : ℚ := 179769313486231570814527423731704356798070567525844996598917476803157260780028538760589558632766878171540458953514382464234321326889464182768467546703537516986049910576551282076245490090389328944075868508455133942304583236903222948165808559332123348274797826204144723168738177180919299881250404026184124858368

/-- The direct-hit section of `find_nearest` (tint.py lines 233-241):
`some r` means the function returns (or raises) `r` there, `none` means it
falls through to the perceptual search. -/
def directHit {Lab : Type} (sys : Option String) (fs : FilterSet) (reg : Registry Lab)
    (h : String) : Option NearRet :=
  match fs with
  | FilterSet.mapping m =>
    match dlookup m h with
    | some name => some (NearRet.rawName name)
    | none => none
  | _ =>
    match sys with
    | none => none
    | some s =>
      match dlookup reg.sysHex s with
      | none => some (NearRet.raised (PyError.keyError s))
      | some smap =>
        match dlookup smap h with
        | none => none
        | some name =>
          match fs with
          | FilterSet.names fl =>
            if name ∈ fl then some (NearRet.found (some name) 0) else none
          | _ => some (NearRet.found (some name) 0)

/-- The candidate dict built from an explicit mapping (tint.py lines
246-248): each value hex code is converted on the fly, and the conversion
error propagates out of the loop. -/
def buildMapLabs {Lab : Type} (rgbToLab : Nat × Nat × Nat → Lab) :
    List (String × String) → Except PyError (List (Lab × String))
  | [] => Except.ok []
  | p :: rest =>
    match hexToLabM rgbToLab p.1 with
    | none => Except.error PyError.typeErrorHexDecode
    | some lab =>
      match buildMapLabs rgbToLab rest with
      | Except.error e => Except.error e
      | Except.ok r => Except.ok ((lab, p.2) :: r)

/-- The candidate set of the perceptual search (tint.py lines 245-253):
the mapping's own colours, or the system's Lab index optionally restricted
to the filter names. -/
def slowCandidates {Lab : Type} (rgbToLab : Nat × Nat × Nat → Lab) (sys : Option String)
    (fs : FilterSet) (reg : Registry Lab) : Except PyError (List (Lab × String)) :=
  match fs with
  | FilterSet.mapping m => buildMapLabs rgbToLab m
  | FilterSet.nofilter =>
    match sys with
    | none => Except.error PyError.typeErrorNeedSystem
    | some s =>
      match dlookup reg.sysLab s with
      | none => Except.error (PyError.keyError s)
      | some lmap => Except.ok lmap
  | FilterSet.names fl =>
    match sys with
    | none => Except.error PyError.typeErrorNeedSystem
    | some s =>
      match dlookup reg.sysLab s with
      | none => Except.error (PyError.keyError s)
      | some lmap => Except.ok (lmap.filter (fun p => decide (p.2 ∈ fl)))

/-- The minimum-tracking loop of `find_nearest` (tint.py lines 255-262):
`f` is the CIEDE2000 distance to the query colour, the accumulator starts at
`(None, sys.float_info.max)`, and only a strictly smaller distance updates
it, so the first candidate of minimal distance wins. -/
def scanMin {Lab : Type} (f : Lab → ℚ) :
    List (Lab × String) → ℚ → Option String → Option String × ℚ
  | [], m, c => (c, m)
  | p :: rest, m, c =>
    if f p.1 < m then scanMin f rest (f p.1) (some p.2) else scanMin f rest m c

/-- `find_nearest(hex_code, system, filter_set)` (tint.py lines 226-264). -/
def findNearest {Lab : Type} (rgbToLab : Nat × Nat × Nat → Lab) (delta : Lab → Lab → ℚ)
    (hexCode : String) (sys : Option String) (fs : FilterSet) (reg : Registry Lab) : NearRet :=
  if sys = none ∧ fs.isMapping = false then NearRet.raised PyError.typeErrorNeedSystem
  else
    let h := pyNorm hexCode
    match directHit sys fs reg h with
    | some r => r
    | none =>
      match hexToLabM rgbToLab h with
      | none => NearRet.raised PyError.typeErrorHexDecode
      | some lc =>
        match slowCandidates rgbToLab sys fs reg with
        | Except.error e => NearRet.raised e
        | Except.ok cs =>
          let r := scanMin (delta lc) cs floatMax none
          NearRet.found r.1 r.2

/-- Dropping trailing elements satisfying `p` (the second half of `strip`). -/
def dropTrail {α : Type} (p : α → Bool) (l : List α) : List α :=
  (l.reverse.dropWhile p).reverse

/-- Invariant maintained by `add_colors`: every hex key of every per-system
hex-to-name dict is already lower-cased and stripped. -/
def RegNormKeys {Lab : Type} (reg : Registry Lab) : Prop :=
  ∀ q ∈ reg.sysHex, ∀ p ∈ q.2, pyNorm p.1 = p.1

/-- Concrete sRGB-to-Lab stand-in used by the concrete evaluations: the red
channel, as a rational. -/
def wR2l (t : Nat × Nat × Nat) : ℚ := (t.1 : ℚ)

/-- Concrete distance stand-in used by the concrete evaluations: the
absolute difference of the numerators, as a rational. -/
def wDelta (a b : ℚ) : ℚ := ((a.num - b.num).natAbs : ℚ)

/-- Extract stand-in returning no candidates (what `process.extract` yields
when the choice list is empty). -/
def wEx0 : String → List String → List (String × Nat) := fun _ _ => []

/-- Extract stand-in scoring the single candidate "white" at 100: the value
fuzzywuzzy's `process.extract` returns for the query "white." against the
choice list ["white"], with either the token-set scorer or the default
scorer, because both pre-process the strings (strip non-alphanumeric
characters, lower-case) before comparing. -/
def wExW : String → List String → List (String × Nat) := fun _ _ => [("white", 100)]

/-- Extract stand-in scoring the single candidate "white" at 80. -/
def wExW80 : String → List String → List (String × Nat) := fun _ _ => [("white", 80)]

/-- Concrete one-colour registry built through `add_colors`. -/
def wRegW : Registry ℚ := (addColors id wR2l "en" [("white", "ffffff")] emptyReg).1

/-- Concrete two-colour registry built through `add_colors`. -/
def wRegEn : Registry ℚ :=
  (addColors id wR2l "en" [("white", "ffffff"), ("black", "000000")] emptyReg).1

/-- The candidate list `find_nearest` scans over `wRegEn` with no filter. -/
def wCs : List (ℚ × String) := [(255, "white"), (0, "black")]

theorem char_toNat_ofNat {n : Nat} (h : n < 55296) : (Char.ofNat n).toNat = n := by
  rw [Char.ofNat, dif_pos (Or.inl h)]
  rfl

theorem toLower_eq_of_range (c : Char) (h : c.toNat ≥ 65 ∧ c.toNat ≤ 90) :
    c.toLower = Char.ofNat (c.toNat + 32) := by
  rw [Char.toLower, if_pos h]

theorem toLower_eq_self (c : Char) (h : ¬(c.toNat ≥ 65 ∧ c.toNat ≤ 90)) :
    c.toLower = c := by
  rw [Char.toLower, if_neg h]

theorem toNat_toLower (c : Char) :
    c.toLower.toNat = if c.toNat ≥ 65 ∧ c.toNat ≤ 90 then c.toNat + 32 else c.toNat := by
  by_cases h : c.toNat ≥ 65 ∧ c.toNat ≤ 90
  · rw [if_pos h, toLower_eq_of_range c h, char_toNat_ofNat (by omega)]
  · rw [if_neg h, toLower_eq_self c h]

theorem toLower_toLower (c : Char) : c.toLower.toLower = c.toLower := by
  by_cases h : c.toNat ≥ 65 ∧ c.toNat ≤ 90
  · have h2 : c.toLower.toNat = c.toNat + 32 := by rw [toNat_toLower, if_pos h]
    apply toLower_eq_self
    rw [h2]
    omega
  · rw [toLower_eq_self c h]
    exact toLower_eq_self c h

theorem isWhitespace_false_of_range (c : Char)
    (h : c.toNat ≥ 65 ∧ c.toNat ≤ 90 ∨ c.toNat ≥ 97 ∧ c.toNat ≤ 122) :
    c.isWhitespace = false := by
  have h32 : c ≠ ' ' := by intro e; subst e; revert h; decide
  have h9 : c ≠ '\t' := by intro e; subst e; revert h; decide
  have h13 : c ≠ '\r' := by intro e; subst e; revert h; decide
  have h10 : c ≠ '\n' := by intro e; subst e; revert h; decide
  simp [Char.isWhitespace, h32, h9, h13, h10]

theorem isWhitespace_toLower (c : Char) : c.toLower.isWhitespace = c.isWhitespace := by
  by_cases h : c.toNat ≥ 65 ∧ c.toNat ≤ 90
  · have h2 : c.toLower.toNat = c.toNat + 32 := by rw [toNat_toLower, if_pos h]
    rw [isWhitespace_false_of_range c (Or.inl h),
      isWhitespace_false_of_range c.toLower (Or.inr (by rw [h2]; omega))]
  · rw [toLower_eq_self c h]

theorem dropWhile_dropWhile {α : Type} (p : α → Bool) (l : List α) :
    (l.dropWhile p).dropWhile p = l.dropWhile p := by
  induction l with
  | nil => rfl
  | cons a t ih =>
    by_cases h : p a
    · simp [List.dropWhile_cons, h, ih]
    · simp [List.dropWhile_cons, h]

theorem dropTrail_dropTrail {α : Type} (p : α → Bool) (l : List α) :
    dropTrail p (dropTrail p l) = dropTrail p l := by
  simp [dropTrail, dropWhile_dropWhile]

theorem dropWhile_eq_self_of_head {α : Type} (p : α → Bool) (l : List α) (a : α)
    (hh : l.head? = some a) (ha : p a = false) : l.dropWhile p = l := by
  cases l with
  | nil => rfl
  | cons b t =>
    have hb : b = a := by simpa using hh
    subst hb
    simp [List.dropWhile_cons, ha]

theorem dropWhile_dropTrail {α : Type} (p : α → Bool) (l : List α)
    (hl : l.dropWhile p = l) : (dropTrail p l).dropWhile p = dropTrail p l := by
  cases l with
  | nil => rfl
  | cons a t =>
    have ha : p a = false := by
      by_contra hc
      have hc2 : p a = true := by simpa using hc
      rw [List.dropWhile_cons, if_pos hc2] at hl
      have hlen := congrArg List.length hl
      have hle := (List.dropWhile_sublist (l := t) p).length_le
      simp at hlen
      omega
    rcases heq : ((a :: t).reverse.dropWhile p) with _ | ⟨b, r⟩
    · rw [dropTrail, heq]
      rfl
    · have hsuf : (a :: t).reverse.dropWhile p <:+ (a :: t).reverse :=
        List.dropWhile_suffix p
      rcases hsuf with ⟨u, hu⟩
      rw [heq] at hu
      have hlast : (b :: r).getLast? = some a := by
        have h1 : (u ++ b :: r).getLast? = some a := by
          rw [hu]
          simp [List.reverse_cons, List.getLast?_concat]
        rw [List.getLast?_append] at h1
        cases hx : (b :: r).getLast? with
        | none =>
          rw [hx] at h1
          have : b :: r ≠ [] := by simp
          rw [List.getLast?_eq_none_iff] at hx
          exact absurd hx this
        | some x =>
          rw [hx] at h1
          simpa using h1
      have hgoal : dropTrail p (a :: t) = (b :: r).reverse := by
        rw [dropTrail, heq]
      rw [hgoal]
      exact dropWhile_eq_self_of_head p ((b :: r).reverse) a
        (by rw [List.head?_reverse]; exact hlast) ha

theorem stripL_stripL (l : List Char) : stripL (stripL l) = stripL l := by
  show dropTrail Char.isWhitespace
      ((dropTrail Char.isWhitespace (l.dropWhile Char.isWhitespace)).dropWhile
        Char.isWhitespace) =
    dropTrail Char.isWhitespace (l.dropWhile Char.isWhitespace)
  rw [dropWhile_dropTrail Char.isWhitespace _ (dropWhile_dropWhile _ l), dropTrail_dropTrail]

theorem lowerL_lowerL (l : List Char) : lowerL (lowerL l) = lowerL l := by
  induction l with
  | nil => rfl
  | cons a t ih =>
    simp only [lowerL, List.map_cons] at ih ⊢
    rw [toLower_toLower, ih]

theorem wsComp : (Char.isWhitespace ∘ Char.toLower) = Char.isWhitespace := by
  funext c
  exact isWhitespace_toLower c

theorem lowerL_stripL (l : List Char) : lowerL (stripL l) = stripL (lowerL l) := by
  simp only [lowerL, stripL]
  simp only [List.dropWhile_map, wsComp, ← List.map_reverse]

theorem normL_idem (l : List Char) :
    stripL (lowerL (stripL (lowerL l))) = stripL (lowerL l) := by
  rw [lowerL_stripL (lowerL l), stripL_stripL, lowerL_lowerL]

theorem pyNorm_pyNorm (s : String) : pyNorm (pyNorm s) = pyNorm s :=
  congrArg String.mk (normL_idem s.data)

theorem dlookup_mem {α β : Type} [DecidableEq α] {l : List (α × β)} {k : α} {v : β}
    (h : dlookup l k = some v) : (k, v) ∈ l := by
  induction l with
  | nil => simp [dlookup] at h
  | cons p rest ih =>
    obtain ⟨a, b⟩ := p
    rw [dlookup] at h
    dsimp only at h
    by_cases hp : a = k
    · rw [if_pos hp] at h
      injection h with hv
      subst hp
      subst hv
      exact List.mem_cons_self _ _
    · rw [if_neg hp] at h
      exact List.mem_cons_of_mem _ (ih h)

theorem mem_dinsert {α β : Type} [DecidableEq α] {l : List (α × β)} {k : α} {v : β}
    {q : α × β} (h : q ∈ dinsert k v l) : q = (k, v) ∨ q ∈ l := by
  induction l with
  | nil => simpa [dinsert] using h
  | cons p rest ih =>
    rw [dinsert] at h
    by_cases hp : p.1 = k
    · rw [if_pos hp] at h
      rcases List.mem_cons.mp h with h1 | h1
      · exact Or.inl h1
      · exact Or.inr (List.mem_cons_of_mem p h1)
    · rw [if_neg hp] at h
      rcases List.mem_cons.mp h with h1 | h1
      · exact Or.inr (h1 ▸ List.mem_cons_self p rest)
      · rcases ih h1 with h2 | h2
        · exact Or.inl h2
        · exact Or.inr (List.mem_cons_of_mem p h2)

theorem dlookup_isSome_of_mem_keys {α β : Type} [DecidableEq α] {l : List (α × β)} {k : α}
    (h : k ∈ l.map Prod.fst) : (dlookup l k).isSome := by
  induction l with
  | nil => simp at h
  | cons p rest ih =>
    rw [dlookup]
    by_cases hp : p.1 = k
    · simp [if_pos hp]
    · rw [if_neg hp]
      apply ih
      simp only [List.map_cons, List.mem_cons] at h
      rcases h with h1 | h1
      · exact absurd h1.symm hp
      · exact h1

theorem dlookup_eq_none {α β : Type} [DecidableEq α] {l : List (α × β)} {k : α}
    (h : k ∉ l.map Prod.fst) : dlookup l k = none := by
  induction l with
  | nil => rfl
  | cons p rest ih =>
    simp only [List.map_cons, List.mem_cons, not_or] at h
    rw [dlookup, if_neg (fun e => h.1 e.symm)]
    exact ih h.2

theorem keys_dinsert {α β : Type} [DecidableEq α] (k : α) (v : β) (l : List (α × β)) :
    (dinsert k v l).map Prod.fst =
      if k ∈ l.map Prod.fst then l.map Prod.fst else l.map Prod.fst ++ [k] := by
  induction l with
  | nil => simp [dinsert]
  | cons p rest ih =>
    rw [dinsert]
    by_cases hp : p.1 = k
    · rw [if_pos hp, if_pos (by simp [List.map_cons, List.mem_cons, hp])]
      simp [hp]
    · rw [if_neg hp]
      simp only [List.map_cons]
      rw [ih]
      by_cases hk : k ∈ rest.map Prod.fst
      · rw [if_pos hk, if_pos (by simp [hk])]
      · rw [if_neg hk,
          if_neg (by
            simp only [List.mem_cons, not_or]
            exact ⟨fun e => hp e.symm, hk⟩)]
        simp

theorem keys_nodup_dinsert {α β : Type} [DecidableEq α] (k : α) (v : β)
    {l : List (α × β)} (h : (l.map Prod.fst).Nodup) :
    ((dinsert k v l).map Prod.fst).Nodup := by
  rw [keys_dinsert]
  by_cases hk : k ∈ l.map Prod.fst
  · rwa [if_pos hk]
  · rw [if_neg hk, List.nodup_append]
    refine ⟨h, List.nodup_singleton k, ?_⟩
    intro a ha hb
    simp at hb
    exact hk (hb ▸ ha)

theorem mem_foldl_dinsert {α β : Type} [DecidableEq α] {q : α × β} :
    ∀ (l : List (α × β)) (acc : List (α × β)),
      q ∈ l.foldl (fun d p => dinsert p.1 p.2 d) acc → q ∈ acc ∨ q ∈ l := by
  intro l
  induction l with
  | nil => exact fun acc h => Or.inl h
  | cons p rest ih =>
    intro acc h
    rcases ih _ h with h1 | h1
    · rcases mem_dinsert h1 with h2 | h2
      · exact Or.inr (by rw [h2, Prod.mk.eta]; exact List.mem_cons_self p rest)
      · exact Or.inl h2
    · exact Or.inr (List.mem_cons_of_mem p h1)

theorem mem_dictOf {l : List (String × Nat)} {q : String × Nat} (h : q ∈ dictOf l) :
    q ∈ l := by
  rcases mem_foldl_dinsert l [] h with h1 | h1
  · simp at h1
  · exact h1

theorem keys_nodup_foldl_dinsert {α β : Type} [DecidableEq α] :
    ∀ (l : List (α × β)) (acc : List (α × β)), (acc.map Prod.fst).Nodup →
      ((l.foldl (fun d p => dinsert p.1 p.2 d) acc).map Prod.fst).Nodup := by
  intro l
  induction l with
  | nil => exact fun acc h => h
  | cons p rest ih => exact fun acc h => ih _ (keys_nodup_dinsert _ _ h)

theorem dictOf_keys_nodup (l : List (String × Nat)) : ((dictOf l).map Prod.fst).Nodup :=
  keys_nodup_foldl_dinsert l [] (by simp)

theorem lookupScore_cons (x : String × Nat) (rest : List (String × Nat)) (k : String) :
    lookupScore (x :: rest) k = if x.1 = k then x.2 else lookupScore rest k := by
  rw [lookupScore, dlookup]
  by_cases h : x.1 = k
  · rw [if_pos h, if_pos h]
    rfl
  · rw [if_neg h, if_neg h]
    rfl

theorem lookupScore_eq_zero {l : List (String × Nat)} {k : String}
    (h : k ∉ l.map Prod.fst) : lookupScore l k = 0 := by
  rw [lookupScore, dlookup_eq_none h]
  rfl

theorem lookupScore_counterAdd (c : List (String × Nat)) (p : String × Nat) (k : String) :
    lookupScore (counterAdd c p) k = lookupScore c k + (if p.1 = k then p.2 else 0) := by
  induction c with
  | nil =>
    rw [counterAdd, lookupScore_cons]
    by_cases hp : p.1 = k
    · rw [if_pos hp, if_pos hp]
      simp [lookupScore, dlookup]
    · rw [if_neg hp, if_neg hp]
      simp [lookupScore, dlookup]
  | cons q rest ih =>
    rw [counterAdd]
    by_cases hq : q.1 = p.1
    · rw [if_pos hq, lookupScore_cons, lookupScore_cons]
      dsimp only
      by_cases hk : q.1 = k
      · rw [if_pos hk, if_pos hk, if_pos (hq ▸ hk)]
      · rw [if_neg hk, if_neg hk, if_neg (fun e => hk (hq ▸ e))]
        omega
    · rw [if_neg hq, lookupScore_cons, lookupScore_cons]
      by_cases hk : q.1 = k
      · rw [if_pos hk, if_pos hk, if_neg (fun e => hq (by rw [e, hk]))]
        omega
      · rw [if_neg hk, if_neg hk, ih]

theorem keys_counterAdd (c : List (String × Nat)) (p : String × Nat) :
    (counterAdd c p).map Prod.fst =
      if p.1 ∈ c.map Prod.fst then c.map Prod.fst else c.map Prod.fst ++ [p.1] := by
  induction c with
  | nil => simp [counterAdd]
  | cons q rest ih =>
    rw [counterAdd]
    by_cases hq : q.1 = p.1
    · rw [if_pos hq, if_pos (by simp [List.map_cons, List.mem_cons, hq])]
      simp [hq]
    · rw [if_neg hq]
      simp only [List.map_cons]
      rw [ih]
      by_cases hk : p.1 ∈ rest.map Prod.fst
      · rw [if_pos hk, if_pos (by simp [hk])]
      · rw [if_neg hk,
          if_neg (by
            simp only [List.mem_cons, not_or]
            exact ⟨fun e => hq e.symm, hk⟩)]
        simp

theorem keys_nodup_counterAdd {c : List (String × Nat)} (p : String × Nat)
    (h : (c.map Prod.fst).Nodup) : ((counterAdd c p).map Prod.fst).Nodup := by
  rw [keys_counterAdd]
  by_cases hk : p.1 ∈ c.map Prod.fst
  · rwa [if_pos hk]
  · rw [if_neg hk, List.nodup_append]
    refine ⟨h, List.nodup_singleton _, ?_⟩
    intro a ha hb
    simp at hb
    exact hk (hb ▸ ha)

theorem keys_nodup_counterMerge :
    ∀ (d c : List (String × Nat)), (c.map Prod.fst).Nodup →
      ((counterMerge c d).map Prod.fst).Nodup := by
  intro d
  induction d with
  | nil => exact fun c h => h
  | cons p rest ih => exact fun c h => ih _ (keys_nodup_counterAdd p h)

theorem lookupScore_counterMerge :
    ∀ (d c : List (String × Nat)) (k : String), (d.map Prod.fst).Nodup →
      lookupScore (counterMerge c d) k = lookupScore c k + lookupScore d k := by
  intro d
  induction d with
  | nil =>
    intro c k _
    simp [counterMerge, lookupScore, dlookup]
  | cons p rest ih =>
    intro c k hd
    simp only [List.map_cons, List.nodup_cons] at hd
    have hstep : counterMerge c (p :: rest) = counterMerge (counterAdd c p) rest := rfl
    rw [hstep, ih _ k hd.2, lookupScore_counterAdd, lookupScore_cons]
    by_cases hk : p.1 = k
    · rw [if_pos hk, if_pos hk]
      have hz : lookupScore rest k = 0 :=
        lookupScore_eq_zero (by rw [← hk]; exact hd.1)
      omega
    · rw [if_neg hk, if_neg hk]
      omega

theorem lookupScore_of_mem_nodup {l : List (String × Nat)} {k : String} {v : Nat}
    (hn : (l.map Prod.fst).Nodup) (h : (k, v) ∈ l) : lookupScore l k = v := by
  induction l with
  | nil => simp at h
  | cons q rest ih =>
    simp only [List.map_cons, List.nodup_cons] at hn
    rw [lookupScore_cons]
    rcases List.mem_cons.mp h with h1 | h1
    · rw [← h1]
      simp
    · by_cases hq : q.1 = k
      · exact absurd (hq ▸ List.mem_map.mpr ⟨(k, v), h1, rfl⟩) hn.1
      · rw [if_neg hq]
        exact ih hn.2 h1

theorem foldl_mc_mem {p : String × Nat} :
    ∀ (l : List (String × Nat)) (acc : Option (String × Nat)),
      l.foldl (fun acc p =>
        match acc with
        | none => some p
        | some q => if q.2 < p.2 then some p else some q) acc = some p →
      acc = some p ∨ p ∈ l := by
  intro l
  induction l with
  | nil => exact fun acc h => Or.inl h
  | cons q rest ih =>
    intro acc h
    rcases ih _ h with h1 | h1
    · cases acc with
      | none =>
        injection h1 with h2
        exact Or.inr (h2 ▸ List.mem_cons_self q rest)
      | some r =>
        dsimp only at h1
        by_cases hlt : r.2 < q.2
        · rw [if_pos hlt] at h1
          injection h1 with h2
          exact Or.inr (h2 ▸ List.mem_cons_self q rest)
        · rw [if_neg hlt] at h1
          exact Or.inl h1
    · exact Or.inr (List.mem_cons_of_mem q h1)

theorem mostCommon1_mem {c : List (String × Nat)} {p : String × Nat}
    (h : mostCommon1 c = some p) : p ∈ c := by
  rcases foldl_mc_mem c none h with h1 | h1
  · exact Option.noConfusion h1
  · exact h1

theorem foldl_mc_isSome :
    ∀ (l : List (String × Nat)) (acc : Option (String × Nat)), acc.isSome →
      (l.foldl (fun acc p =>
        match acc with
        | none => some p
        | some q => if q.2 < p.2 then some p else some q) acc).isSome := by
  intro l
  induction l with
  | nil => exact fun acc h => h
  | cons q rest ih =>
    intro acc h
    apply ih
    cases acc with
    | none => rfl
    | some r =>
      dsimp only
      by_cases hlt : r.2 < q.2
      · rw [if_pos hlt]
        rfl
      · rw [if_neg hlt]
        rfl

theorem mostCommon1_isSome {c : List (String × Nat)} (h : c ≠ []) :
    (mostCommon1 c).isSome := by
  cases c with
  | nil => exact absurd rfl h
  | cons q rest => exact foldl_mc_isSome rest (some q) rfl

theorem scanMin_snd_le {Lab : Type} (f : Lab → ℚ) :
    ∀ (cs : List (Lab × String)) (m : ℚ) (c : Option String),
      (scanMin f cs m c).2 ≤ m ∧ ∀ p ∈ cs, (scanMin f cs m c).2 ≤ f p.1 := by
  intro cs
  induction cs with
  | nil => exact fun m c => ⟨le_refl m, by simp⟩
  | cons p rest ih =>
    intro m c
    rw [scanMin]
    by_cases h : f p.1 < m
    · rw [if_pos h]
      rcases ih (f p.1) (some p.2) with ⟨h1, h2⟩
      refine ⟨le_trans h1 (le_of_lt h), ?_⟩
      intro q hq
      rcases List.mem_cons.mp hq with h3 | h3
      · rw [h3]
        exact h1
      · exact h2 q h3
    · rw [if_neg h]
      rcases ih m c with ⟨h1, h2⟩
      refine ⟨h1, ?_⟩
      intro q hq
      rcases List.mem_cons.mp hq with h3 | h3
      · rw [h3]
        exact le_trans h1 (not_lt.mp h)
      · exact h2 q h3

theorem scanMin_keep {Lab : Type} (f : Lab → ℚ) :
    ∀ (cs : List (Lab × String)) (m : ℚ) (c : Option String),
      (∀ p ∈ cs, ¬ f p.1 < m) → scanMin f cs m c = (c, m) := by
  intro cs
  induction cs with
  | nil => exact fun m c _ => rfl
  | cons p rest ih =>
    intro m c h
    rw [scanMin, if_neg (h p (List.mem_cons_self p rest))]
    exact ih m c (fun q hq => h q (List.mem_cons_of_mem p hq))

theorem scanMin_attained {Lab : Type} (f : Lab → ℚ) :
    ∀ (cs : List (Lab × String)) (m : ℚ) (c : Option String),
      (∃ q ∈ cs, f q.1 < m) →
      ∃ p ∈ cs, f p.1 = (scanMin f cs m c).2 ∧ (scanMin f cs m c).1 = some p.2 := by
  intro cs
  induction cs with
  | nil =>
    intro m c h
    simp at h
  | cons p rest ih =>
    intro m c h
    by_cases hp : f p.1 < m
    · have hres : scanMin f (p :: rest) m c = scanMin f rest (f p.1) (some p.2) := by
        rw [scanMin, if_pos hp]
      rw [hres]
      by_cases hr : ∃ q ∈ rest, f q.1 < f p.1
      · rcases ih (f p.1) (some p.2) hr with ⟨q, hq, h1, h2⟩
        exact ⟨q, List.mem_cons_of_mem p hq, h1, h2⟩
      · push_neg at hr
        rw [scanMin_keep f rest (f p.1) (some p.2) (fun q hq => not_lt.mpr (hr q hq))]
        exact ⟨p, List.mem_cons_self p rest, rfl, rfl⟩
    · have hres : scanMin f (p :: rest) m c = scanMin f rest m c := by
        rw [scanMin, if_neg hp]
      rw [hres]
      have h2 : ∃ q ∈ rest, f q.1 < m := by
        rcases h with ⟨q, hq, hlt⟩
        rcases List.mem_cons.mp hq with h3 | h3
        · exact absurd (h3 ▸ hlt) hp
        · exact ⟨q, h3, hlt⟩
      rcases ih m c h2 with ⟨q, hq, ha, hb⟩
      exact ⟨q, List.mem_cons_of_mem p hq, ha, hb⟩

theorem scanMin_first {Lab : Type} (f : Lab → ℚ) :
    ∀ (cs : List (Lab × String)) (m : ℚ) (c : Option String),
      (∃ q ∈ cs, f q.1 < m) →
      (scanMin f cs m c).1 =
        (cs.find? (fun p => decide (f p.1 = (scanMin f cs m c).2))).map Prod.snd := by
  intro cs
  induction cs with
  | nil =>
    intro m c h
    simp at h
  | cons p rest ih =>
    intro m c h
    by_cases hp : f p.1 < m
    · have hres : scanMin f (p :: rest) m c = scanMin f rest (f p.1) (some p.2) := by
        rw [scanMin, if_pos hp]
      by_cases hr : ∃ q ∈ rest, f q.1 < f p.1
      · rw [hres]
        rcases hr with ⟨q, hq, hlt⟩
        have hM := (scanMin_snd_le f rest (f p.1) (some p.2)).2 q hq
        have hne : f p.1 ≠ (scanMin f rest (f p.1) (some p.2)).2 :=
          ne_of_gt (lt_of_le_of_lt hM hlt)
        rw [List.find?_cons_of_neg _ (by simp [hne])]
        exact ih (f p.1) (some p.2) ⟨q, hq, hlt⟩
      · push_neg at hr
        have hres2 : scanMin f (p :: rest) m c = (some p.2, f p.1) := by
          rw [hres]
          exact scanMin_keep f rest (f p.1) (some p.2) (fun q hq => not_lt.mpr (hr q hq))
        rw [hres2]
        rw [List.find?_cons_of_pos _ (by simp)]
        rfl
    · have hres : scanMin f (p :: rest) m c = scanMin f rest m c := by
        rw [scanMin, if_neg hp]
      have h2 : ∃ q ∈ rest, f q.1 < m := by
        rcases h with ⟨q, hq, hlt⟩
        rcases List.mem_cons.mp hq with h3 | h3
        · exact absurd (h3 ▸ hlt) hp
        · exact ⟨q, h3, hlt⟩
      rcases h2 with ⟨q, hq, hlt⟩
      have hM := (scanMin_snd_le f rest m c).2 q hq
      have hne : f p.1 ≠ (scanMin f rest m c).2 :=
        ne_of_gt (lt_of_lt_of_le (lt_of_le_of_lt hM hlt) (not_lt.mp hp))
      rw [hres, List.find?_cons_of_neg _ (by simp [hne])]
      exact ih m c ⟨q, hq, hlt⟩

theorem scanMin_fst_mem {Lab : Type} (f : Lab → ℚ) :
    ∀ (cs : List (Lab × String)) (m : ℚ) (c : Option String) {nm : String},
      (scanMin f cs m c).1 = some nm → c = some nm ∨ ∃ p ∈ cs, p.2 = nm := by
  intro cs
  induction cs with
  | nil => exact fun m c _ h => Or.inl h
  | cons p rest ih =>
    intro m c nm h
    rw [scanMin] at h
    by_cases hp : f p.1 < m
    · rw [if_pos hp] at h
      rcases ih _ _ h with h1 | h1
      · injection h1 with h2
        exact Or.inr ⟨p, List.mem_cons_self p rest, h2⟩
      · rcases h1 with ⟨q, hq, h2⟩
        exact Or.inr ⟨q, List.mem_cons_of_mem p hq, h2⟩
    · rw [if_neg hp] at h
      rcases ih _ _ h with h1 | h1
      · exact Or.inl h1
      · rcases h1 with ⟨q, hq, h2⟩
        exact Or.inr ⟨q, List.mem_cons_of_mem p hq, h2⟩

theorem mem_updSys {α : Type} {sys : String} {f : α → α} :
    ∀ {d : List (String × α)} {q : String × α}, q ∈ updSys sys f d →
      q ∈ d ∨ ∃ m, (sys, m) ∈ d ∧ q = (sys, f m) := by
  intro d
  induction d with
  | nil =>
    intro q h
    simp [updSys] at h
  | cons p rest ih =>
    intro q h
    rw [updSys] at h
    by_cases hp : p.1 = sys
    · rw [if_pos hp] at h
      rcases List.mem_cons.mp h with h1 | h1
      · right
        refine ⟨p.2, ?_, ?_⟩
        · rw [← hp, Prod.mk.eta]
          exact List.mem_cons_self p rest
        · rw [h1, hp]
      · exact Or.inl (List.mem_cons_of_mem p h1)
    · rw [if_neg hp] at h
      rcases List.mem_cons.mp h with h1 | h1
      · exact Or.inl (h1 ▸ List.mem_cons_self p rest)
      · rcases ih h1 with h2 | ⟨m, hm, he⟩
        · exact Or.inl (List.mem_cons_of_mem p h2)
        · exact Or.inr ⟨m, List.mem_cons_of_mem p hm, he⟩

theorem regNormKeys_ensureSystem {Lab : Type} (sys : String) (reg : Registry Lab)
    (h : RegNormKeys reg) : RegNormKeys (ensureSystem sys reg) := by
  rw [ensureSystem]
  by_cases hs : (dlookup reg.sysHex sys).isSome
  · rwa [if_pos hs]
  · rw [if_neg hs]
    intro q hq p hp
    rcases List.mem_append.mp hq with h1 | h1
    · exact h q h1 p hp
    · simp only [List.mem_singleton] at h1
      rw [h1] at hp
      simp at hp

theorem regNormKeys_addPair {Lab : Type} {normalize : String → String}
    {rgbToLab : Nat × Nat × Nat → Lab} {sys : String} {reg reg2 : Registry Lab}
    {p : String × String} (h : RegNormKeys reg)
    (ha : addPair normalize rgbToLab sys reg p = some reg2) : RegNormKeys reg2 := by
  rw [addPair] at ha
  rcases hx : hexToLabM rgbToLab (pyNorm p.2) with _ | lab
  · rw [hx] at ha
    exact Option.noConfusion ha
  · rw [hx] at ha
    injection ha with ha2
    rw [← ha2]
    intro q hq p' hp'
    rcases mem_updSys hq with h1 | ⟨m, hm, he⟩
    · exact h q h1 p' hp'
    · rw [he] at hp'
      rcases mem_dinsert hp' with h2 | h2
      · rw [h2]
        exact pyNorm_pyNorm p.2
      · exact h (sys, m) hm p' h2

theorem regNormKeys_addLoop {Lab : Type} (normalize : String → String)
    (rgbToLab : Nat × Nat × Nat → Lab) (sys : String) :
    ∀ (colors : List (String × String)) (reg : Registry Lab), RegNormKeys reg →
      RegNormKeys (addLoop normalize rgbToLab sys colors reg).1 := by
  intro colors
  induction colors with
  | nil => exact fun reg h => h
  | cons p rest ih =>
    intro reg h
    rw [addLoop]
    rcases ha : addPair normalize rgbToLab sys reg p with _ | reg2
    · exact h
    · exact ih reg2 (regNormKeys_addPair h ha)

theorem regNormKeys_addColors {Lab : Type} (normalize : String → String)
    (rgbToLab : Nat × Nat × Nat → Lab) (sys : String) (colors : List (String × String))
    (reg : Registry Lab) (h : RegNormKeys reg) :
    RegNormKeys (addColors normalize rgbToLab sys colors reg).1 :=
  regNormKeys_addLoop normalize rgbToLab sys colors _ (regNormKeys_ensureSystem sys reg h)

theorem directHit_mapping_eq {Lab : Type} (sys : Option String) (m : List (String × String))
    (reg : Registry Lab) (h : String) :
    directHit sys (FilterSet.mapping m) reg h =
      match dlookup m h with
      | some name => some (NearRet.rawName name)
      | none => none := rfl

theorem directHit_nofilter_eq {Lab : Type} (s : String) (reg : Registry Lab) (h : String) :
    directHit (some s) FilterSet.nofilter reg h =
      match dlookup reg.sysHex s with
      | none => some (NearRet.raised (PyError.keyError s))
      | some smap =>
        match dlookup smap h with
        | none => none
        | some name => some (NearRet.found (some name) 0) := rfl

theorem directHit_names_eq {Lab : Type} (s : String) (F : List String) (reg : Registry Lab)
    (h : String) :
    directHit (some s) (FilterSet.names F) reg h =
      match dlookup reg.sysHex s with
      | none => some (NearRet.raised (PyError.keyError s))
      | some smap =>
        match dlookup smap h with
        | none => none
        | some name => if name ∈ F then some (NearRet.found (some name) 0) else none := rfl

theorem findNearest_eq_of_directHit {Lab : Type} (rgbToLab : Nat × Nat × Nat → Lab)
    (delta : Lab → Lab → ℚ) (hexCode : String) (sys : Option String) (fs : FilterSet)
    (reg : Registry Lab) (r : NearRet) (hguard : ¬(sys = none ∧ fs.isMapping = false))
    (hdh : directHit sys fs reg (pyNorm hexCode) = some r) :
    findNearest rgbToLab delta hexCode sys fs reg = r := by
  unfold findNearest
  rw [if_neg hguard]
  dsimp only
  rw [hdh]

theorem findNearest_eq_slow {Lab : Type} (rgbToLab : Nat × Nat × Nat → Lab)
    (delta : Lab → Lab → ℚ) (hexCode : String) (sys : Option String) (fs : FilterSet)
    (reg : Registry Lab) (lc : Lab) (cs : List (Lab × String))
    (hguard : ¬(sys = none ∧ fs.isMapping = false))
    (hdh : directHit sys fs reg (pyNorm hexCode) = none)
    (hlab : hexToLabM rgbToLab (pyNorm hexCode) = some lc)
    (hcs : slowCandidates rgbToLab sys fs reg = Except.ok cs) :
    findNearest rgbToLab delta hexCode sys fs reg =
      NearRet.found (scanMin (delta lc) cs floatMax none).1
        (scanMin (delta lc) cs floatMax none).2 := by
  unfold findNearest
  rw [if_neg hguard]
  dsimp only
  rw [hdh]
  dsimp only
  rw [hlab]
  dsimp only
  rw [hcs]

theorem matchName_fuzzy_eq {Lab : Type} (normalize : String → String)
    (es estd : String → List String → List (String × Nat)) (reg : Registry Lab)
    (inStr : String) (hmiss : dlookup reg.hexByColor (normalize inStr) = none) :
    matchName normalize es estd reg inStr =
      match mostCommon1 (counterMerge
          (dictOf (es (normalize inStr) (reg.hexByColor.map Prod.fst)))
          (dictOf (estd (normalize inStr) (reg.hexByColor.map Prod.fst)))) with
      | none => MatchRet.raised PyError.indexError
      | some nc =>
        match dlookup reg.hexByColor nc.1 with
        | none => MatchRet.raised (PyError.keyError nc.1)
        | some hx => MatchRet.ok hx (nc.2 / 2) := by
  unfold matchName
  dsimp only
  rw [hmiss]

theorem slowCandidates_names_ok {Lab : Type} {rgbToLab : Nat × Nat × Nat → Lab}
    {S : String} {F : List String} {reg : Registry Lab} {cs : List (Lab × String)}
    (h : slowCandidates rgbToLab (some S) (FilterSet.names F) reg = Except.ok cs) :
    ∃ lmap, dlookup reg.sysLab S = some lmap ∧
      cs = lmap.filter (fun p => decide (p.2 ∈ F)) := by
  unfold slowCandidates at h
  dsimp only at h
  rcases hl : dlookup reg.sysLab S with _ | lmap
  · simp only [hl] at h
    exact Except.noConfusion h
  · simp only [hl] at h
    injection h with h2
    exact ⟨lmap, rfl, h2.symm⟩

theorem dinsert_ne_nil {α β : Type} [DecidableEq α] (k : α) (v : β) (l : List (α × β)) :
    dinsert k v l ≠ [] := by
  cases l with
  | nil => simp [dinsert]
  | cons p rest =>
    rw [dinsert]
    split <;> simp

theorem counterAdd_ne_nil (c : List (String × Nat)) (p : String × Nat) :
    counterAdd c p ≠ [] := by
  cases c with
  | nil => simp [counterAdd]
  | cons q rest =>
    rw [counterAdd]
    split <;> simp

theorem counterMerge_ne_nil_left :
    ∀ (d c : List (String × Nat)), c ≠ [] → counterMerge c d ≠ [] := by
  intro d
  induction d with
  | nil => exact fun c h => h
  | cons p rest ih => exact fun c _ => ih _ (counterAdd_ne_nil c p)

theorem counterMerge_ne_nil_right (c d : List (String × Nat)) (h : d ≠ []) :
    counterMerge c d ≠ [] := by
  cases d with
  | nil => exact absurd rfl h
  | cons p rest => exact counterMerge_ne_nil_left rest _ (counterAdd_ne_nil c p)

theorem keys_counterMerge_subset :
    ∀ (d c : List (String × Nat)) (k : String), k ∈ (counterMerge c d).map Prod.fst →
      k ∈ c.map Prod.fst ∨ k ∈ d.map Prod.fst := by
  intro d
  induction d with
  | nil => exact fun c k h => Or.inl h
  | cons p rest ih =>
    intro c k h
    rcases ih (counterAdd c p) k h with h1 | h1
    · rw [keys_counterAdd] at h1
      by_cases hp : p.1 ∈ c.map Prod.fst
      · rw [if_pos hp] at h1
        exact Or.inl h1
      · rw [if_neg hp] at h1
        rcases List.mem_append.mp h1 with h2 | h2
        · exact Or.inl h2
        · simp only [List.mem_singleton] at h2
          right
          simp only [List.map_cons, List.mem_cons]
          exact Or.inl h2
    · right
      simp only [List.map_cons]
      exact List.mem_cons_of_mem _ h1

theorem keys_dictOf_subset {l : List (String × Nat)} {k : String}
    (h : k ∈ (dictOf l).map Prod.fst) : k ∈ l.map Prod.fst := by
  rcases List.mem_map.mp h with ⟨q, hq, he⟩
  exact List.mem_map.mpr ⟨q, mem_dictOf hq, he⟩

theorem floatMax_eq : floatMax = 2 ^ 1024 - 2 ^ 971 := by norm_num [floatMax]

/-- Claim C1: exact-name round trip.  For every (name, hex) pair registered
via `add_colors` whose normalized name is the current key of the Name Index
`_hex_by_color` (not overwritten by a later registration), `match_name`
applied to the stored name (lower-cased and stripped, as the registry keeps
it) returns that pair's stored hex code with the perfect score 100. -/
theorem matchName_exact_round_trip {Lab : Type} (normalize : String → String)
    (rgbToLab : Nat × Nat × Nat → Lab)
    (es estd : String → List String → List (String × Nat)) (sys : String)
    (pairs : List (String × String)) (reg0 : Registry Lab) (nm hx : String)
    (hmem : (nm, hx) ∈ pairs)
    (hcur : dlookup (addColors normalize rgbToLab sys pairs reg0).1.hexByColor
      (normalize (pyNorm nm)) = some (pyNorm hx)) :
    matchName normalize es estd (addColors normalize rgbToLab sys pairs reg0).1
      (pyNorm nm) = MatchRet.ok (pyNorm hx) 100 := by
  unfold matchName
  dsimp only
  rw [hcur]

/-- Witness for C1: registering ("White ", "FFFFFF") and matching the stored
name "white" yields ("ffffff", 100). -/
theorem matchName_exact_round_trip_witness :
    matchName id wEx0 wEx0 (addColors id wR2l "en" [("White ", "FFFFFF")] emptyReg).1
      (pyNorm "White ") = MatchRet.ok (pyNorm "FFFFFF") 100 :=
  matchName_exact_round_trip id wR2l wEx0 wEx0 "en" [("White ", "FFFFFF")] emptyReg
    "White " "FFFFFF" (by decide) (by decide)

/-- Claim C2: exact-hex round trip.  For every (name, hex) pair registered
in system S whose hex code is the current entry of S's hex-to-name map,
`find_nearest(hex, S)` with no filter returns (name, 0) through the
direct-hit path. -/
theorem findNearest_exact_hex_round_trip {Lab : Type} (normalize : String → String)
    (rgbToLab : Nat × Nat × Nat → Lab) (delta : Lab → Lab → ℚ) (sys : String)
    (pairs : List (String × String)) (reg0 : Registry Lab) (h0 : RegNormKeys reg0)
    (hx nm : String) (smap : List (String × String))
    (hsys : dlookup (addColors normalize rgbToLab sys pairs reg0).1.sysHex sys = some smap)
    (hcur : dlookup smap hx = some nm) :
    findNearest rgbToLab delta hx (some sys) FilterSet.nofilter
      (addColors normalize rgbToLab sys pairs reg0).1 = NearRet.found (some nm) 0 := by
  have hR := regNormKeys_addColors normalize rgbToLab sys pairs reg0 h0
  have hkey : pyNorm hx = hx := hR _ (dlookup_mem hsys) _ (dlookup_mem hcur)
  apply findNearest_eq_of_directHit
  · simp
  · rw [hkey, directHit_nofilter_eq, hsys]
    dsimp only
    rw [hcur]

/-- Witness for C2: registering ("white", "ffffff") in "en" and querying
"ffffff" returns ("white", 0). -/
theorem findNearest_exact_hex_round_trip_witness :
    findNearest wR2l wDelta "ffffff" (some "en") FilterSet.nofilter
      (addColors id wR2l "en" [("white", "ffffff")] emptyReg).1 =
    NearRet.found (some "white") 0 :=
  findNearest_exact_hex_round_trip id wR2l wDelta "en" [("white", "ffffff")] emptyReg
    (fun q hq => absurd hq (List.not_mem_nil q)) "ffffff" "white" [("ffffff", "white")]
    (by decide) (by decide)

/-- Claim C3 (code bug): the explicit-mapping fast path of `find_nearest`
returns the bare name string (tint.py line 236), not the `FindResult`
(name, 0) the claim and the function's own docstring ("Returns: A named
tuple with the members color_name and distance") describe: with the mapping
containing "ff0000" -> "red" and the input "ff0000" the call returns the raw
string "red" (no system argument is needed, but the result shape is wrong). -/
theorem findNearest_mapping_fast_path_raw :
    findNearest wR2l wDelta "ff0000" none
      (FilterSet.mapping [("ff0000", "red"), ("00ff00", "green")])
      (emptyReg : Registry ℚ) =
    NearRet.rawName "red" := by decide

/-- Claim C7 (code bug): `find_nearest` on an unregistered system with no
mapping filter raises the generic dict-lookup KeyError carrying only the
attempted identifier (tint.py line 238); there is no distinct UnknownSystem
error enumerating the registered systems, and the repository's own test
(test_find_no_system) expects a ValueError here instead. -/
theorem findNearest_unknown_system_keyError :
    findNearest wR2l wDelta "000000" (some "not_a_real_system") FilterSet.nofilter
      (emptyReg : Registry ℚ) =
    NearRet.raised (PyError.keyError "not_a_real_system") := by decide

/-- Claim C4: slow-path minimality.  Whenever `find_nearest` reaches the
perceptual scan (no direct hit, the query hex converts, the candidate set is
built) over a non-empty candidate list whose distances are below
`sys.float_info.max`, it returns the minimum CIEDE2000 distance over all
candidates together with the name of the first candidate in scan order
attaining that minimum. -/
theorem findNearest_slow_path_minimal {Lab : Type} (rgbToLab : Nat × Nat × Nat → Lab)
    (delta : Lab → Lab → ℚ) (hx : String) (sys : Option String) (fs : FilterSet)
    (reg : Registry Lab) (lc : Lab) (cs : List (Lab × String))
    (hguard : ¬(sys = none ∧ fs.isMapping = false))
    (hdh : directHit sys fs reg (pyNorm hx) = none)
    (hlab : hexToLabM rgbToLab (pyNorm hx) = some lc)
    (hcs : slowCandidates rgbToLab sys fs reg = Except.ok cs)
    (hne : cs ≠ [])
    (hlt : ∀ p ∈ cs, delta lc p.1 < floatMax) :
    ∃ d, (∀ p ∈ cs, d ≤ delta lc p.1) ∧ (∃ p ∈ cs, delta lc p.1 = d) ∧
      findNearest rgbToLab delta hx sys fs reg =
        NearRet.found ((cs.find? (fun p => decide (delta lc p.1 = d))).map Prod.snd) d := by
  have hex2 : ∃ q ∈ cs, delta lc q.1 < floatMax := by
    rcases cs with _ | ⟨q, rest⟩
    · exact absurd rfl hne
    · exact ⟨q, List.mem_cons_self q rest, hlt q (List.mem_cons_self q rest)⟩
  refine ⟨(scanMin (delta lc) cs floatMax none).2, ?_, ?_, ?_⟩
  · exact (scanMin_snd_le (delta lc) cs floatMax none).2
  · rcases scanMin_attained (delta lc) cs floatMax none hex2 with ⟨p, hp, h1, _⟩
    exact ⟨p, hp, h1⟩
  · rw [findNearest_eq_slow rgbToLab delta hx sys fs reg lc cs hguard hdh hlab hcs,
      ← scanMin_first (delta lc) cs floatMax none hex2]

/-- Witness for C4 over a concrete two-candidate registry: the minimum 18 is
attained first by "black". -/
theorem findNearest_slow_path_minimal_witness :
    ∃ d, (∀ p ∈ wCs, d ≤ wDelta 18 p.1) ∧ (∃ p ∈ wCs, wDelta 18 p.1 = d) ∧
      findNearest wR2l wDelta "123456" (some "en") FilterSet.nofilter wRegEn =
        NearRet.found ((wCs.find? (fun p => decide (wDelta 18 p.1 = d))).map Prod.snd) d :=
  findNearest_slow_path_minimal wR2l wDelta "123456" (some "en") FilterSet.nofilter wRegEn
    18 wCs (by decide) (by decide) (by decide) rfl (by decide) (by decide)

/-- Claim C10: empty-candidate sentinel.  When the perceptual search runs
over an empty candidate set (for instance a name filter matching nothing),
`find_nearest` does not raise: it returns `FindResult(None,
sys.float_info.max)`, an absent name paired with the maximum float. -/
theorem findNearest_empty_candidates_sentinel {Lab : Type} (rgbToLab : Nat × Nat × Nat → Lab)
    (delta : Lab → Lab → ℚ) (hx : String) (sys : Option String) (fs : FilterSet)
    (reg : Registry Lab) (lc : Lab)
    (hguard : ¬(sys = none ∧ fs.isMapping = false))
    (hdh : directHit sys fs reg (pyNorm hx) = none)
    (hlab : hexToLabM rgbToLab (pyNorm hx) = some lc)
    (hcs : slowCandidates rgbToLab sys fs reg = Except.ok []) :
    findNearest rgbToLab delta hx sys fs reg = NearRet.found none floatMax := by
  rw [findNearest_eq_slow rgbToLab delta hx sys fs reg lc [] hguard hdh hlab hcs]
  rfl

/-- Witness for C10: a name filter matching nothing in the system yields
`(None, sys.float_info.max)`. -/
theorem findNearest_empty_candidates_sentinel_witness :
    findNearest wR2l wDelta "123456" (some "en") (FilterSet.names ["pink"]) wRegEn =
      NearRet.found none floatMax :=
  findNearest_empty_candidates_sentinel wR2l wDelta "123456" (some "en")
    (FilterSet.names ["pink"]) wRegEn 18 (by decide) (by decide) (by decide) rfl

/-- Claim C6: filter containment.  A call `find_nearest(hex, S,
filter_set=F)` with a name-list filter that returns a present color name
only returns a member of F, on both the direct-hit and the perceptual-scan
paths. -/
theorem findNearest_filter_containment {Lab : Type} (rgbToLab : Nat × Nat × Nat → Lab)
    (delta : Lab → Lab → ℚ) (hx S : String) (F : List String) (reg : Registry Lab)
    (nm : String) (d : ℚ)
    (hrun : findNearest rgbToLab delta hx (some S) (FilterSet.names F) reg =
      NearRet.found (some nm) d) :
    nm ∈ F := by
  unfold findNearest at hrun
  rw [if_neg (by simp)] at hrun
  dsimp only at hrun
  rcases hdh : directHit (some S) (FilterSet.names F) reg (pyNorm hx) with _ | r
  · rw [hdh] at hrun
    dsimp only at hrun
    rcases hlab : hexToLabM rgbToLab (pyNorm hx) with _ | lc
    · rw [hlab] at hrun
      dsimp only at hrun
      exact NearRet.noConfusion hrun
    · rw [hlab] at hrun
      dsimp only at hrun
      rcases hcs : slowCandidates rgbToLab (some S) (FilterSet.names F) reg with e | cs
      · rw [hcs] at hrun
        dsimp only at hrun
        exact NearRet.noConfusion hrun
      · rw [hcs] at hrun
        dsimp only at hrun
        injection hrun with h1 h2
        rcases scanMin_fst_mem (delta lc) cs floatMax none h1 with hc | ⟨p, hp, he⟩
        · exact Option.noConfusion hc
        · rcases slowCandidates_names_ok hcs with ⟨lmap, _, hfil⟩
          rw [hfil] at hp
          have hmf := List.mem_filter.mp hp
          rw [← he]
          exact of_decide_eq_true hmf.2
  · rw [hdh] at hrun
    dsimp only at hrun
    subst hrun
    rw [directHit_names_eq] at hdh
    rcases hs : dlookup reg.sysHex S with _ | smap
    · rw [hs] at hdh
      dsimp only at hdh
      injection hdh with h1
      exact NearRet.noConfusion h1
    · rw [hs] at hdh
      dsimp only at hdh
      rcases hm : dlookup smap (pyNorm hx) with _ | name
      · rw [hm] at hdh
        dsimp only at hdh
        exact Option.noConfusion hdh
      · rw [hm] at hdh
        dsimp only at hdh
        by_cases hin : name ∈ F
        · rw [if_pos hin] at hdh
          injection hdh with h3
          injection h3 with h4 h5
          injection h4 with h6
          exact h6 ▸ hin
        · rw [if_neg hin] at hdh
          exact Option.noConfusion hdh

/-- Witness for C6: the returned name "black" lies in the filter list. -/
theorem findNearest_filter_containment_witness : "black" ∈ ["white", "black"] :=
  findNearest_filter_containment wR2l wDelta "123456" "en" ["white", "black"] wRegEn
    "black" 18 (by decide)

theorem addLoop_malformed {Lab : Type} (normalize : String → String)
    (rgbToLab : Nat × Nat × Nat → Lab) (sys : String) :
    ∀ (good : List (String × String)) (bad : String × String)
      (rest : List (String × String)) (reg : Registry Lab),
      (∀ p ∈ good, (hexToLabM rgbToLab (pyNorm p.2)).isSome) →
      hexToLabM rgbToLab (pyNorm bad.2) = none →
      addLoop normalize rgbToLab sys (good ++ bad :: rest) reg =
        ((addLoop normalize rgbToLab sys good reg).1, some PyError.typeErrorHexDecode) := by
  intro good
  induction good with
  | nil =>
    intro bad rest reg _ hbad
    have hap : addPair normalize rgbToLab sys reg bad = none := by
      unfold addPair
      dsimp only
      rw [hbad]
    simp only [List.nil_append, addLoop, hap]
  | cons p good ih =>
    intro bad rest reg hgood hbad
    rcases hap : addPair normalize rgbToLab sys reg p with _ | reg2
    · exfalso
      have hsome := hgood p (List.mem_cons_self _ _)
      rcases hx2 : hexToLabM rgbToLab (pyNorm p.2) with _ | lab
      · rw [hx2] at hsome
        simp at hsome
      · unfold addPair at hap
        dsimp only at hap
        rw [hx2] at hap
        dsimp only at hap
        exact Option.noConfusion hap
    · rw [List.cons_append]
      simp only [addLoop, hap]
      exact ih bad rest reg2 (fun q hq => hgood q (List.mem_cons_of_mem p hq)) hbad

/-- Claim C9: per-pair atomicity of `add_colors` under malformed hex codes.
A pair whose hex code does not decode to three RGB bytes makes the
hex-to-perceptual conversion raise, and the call stops with the registry in
exactly the state the previously processed pairs of the same call built:
the failing pair adds nothing to any of the three indexes, the earlier
pairs stay registered. -/
theorem addColors_malformed_atomic {Lab : Type} (normalize : String → String)
    (rgbToLab : Nat × Nat × Nat → Lab) (sys : String) (good : List (String × String))
    (bad : String × String) (rest : List (String × String)) (reg : Registry Lab)
    (hgood : ∀ p ∈ good, (hexToLabM rgbToLab (pyNorm p.2)).isSome)
    (hbad : hexToLabM rgbToLab (pyNorm bad.2) = none) :
    addColors normalize rgbToLab sys (good ++ bad :: rest) reg =
      ((addColors normalize rgbToLab sys good reg).1, some PyError.typeErrorHexDecode) := by
  unfold addColors
  exact addLoop_malformed normalize rgbToLab sys good bad rest (ensureSystem sys reg)
    hgood hbad

/-- Witness for C9: registering white, then the malformed "xyz", then green
raises at "xyz" and leaves exactly the registry of the first pair. -/
theorem addColors_malformed_atomic_witness :
    addColors id wR2l "en"
        ([("white", "ffffff")] ++ ("bad", "xyz") :: [("green", "00ff00")]) emptyReg =
      ((addColors id wR2l "en" [("white", "ffffff")] emptyReg).1,
        some PyError.typeErrorHexDecode) :=
  addColors_malformed_atomic id wR2l "en" [("white", "ffffff")] ("bad", "xyz")
    [("green", "00ff00")] emptyReg (by decide) (by decide)

theorem foldl_dinsert_ne_nil {α β : Type} [DecidableEq α] :
    ∀ (l acc : List (α × β)), acc ≠ [] →
      l.foldl (fun d p => dinsert p.1 p.2 d) acc ≠ [] := by
  intro l
  induction l with
  | nil => exact fun acc h => h
  | cons p rest ih => exact fun acc _ => ih _ (dinsert_ne_nil p.1 p.2 acc)

theorem dictOf_ne_nil {l : List (String × Nat)} (h : l ≠ []) : dictOf l ≠ [] := by
  cases l with
  | nil => exact absurd rfl h
  | cons p rest => exact foldl_dinsert_ne_nil rest _ (dinsert_ne_nil p.1 p.2 [])

/-- Counterexample to claim C5 as stated: score 100 is not exclusive to the
exact-match fast path.  With the single registered colour ("white",
"ffffff") and the input "white.", the normalized input is not a key of the
Name Index, yet `match_name` returns ("ffffff", 100): both `process.extract`
calls score the candidate "white" at 100 (fuzzywuzzy full-processes the
strings, stripping the trailing period, before comparing, for the token-set
scorer as well as the default scorer), so the merged count is 200 and the
returned score is 200 / 2 = 100 on the fuzzy path. -/
theorem matchName_fuzzy_perfect_score_cex :
    dlookup wRegW.hexByColor (id "white.") = none ∧
    matchName id wExW wExW wRegW "white." = MatchRet.ok "ffffff" 100 :=
  ⟨by decide, by decide⟩

/-- Claim C5 (amended): score construction of `match_name` off the exact
path.  When the normalized input is not a Name Index key and each scorer's
extract results stay within 0..100, the returned score is the winning
candidate's merged count halved (integer division), the merged count is the
sum of the two extract dicts' scores for the winner (an absent score counts
as 0), the score lies in [0, 100], and the returned hex code is the Name
Index entry of the winner.  (Score 100 can also arise here, when both
scorers rate the winner 100; the original claim's "only via the exact
path" is refuted by `matchName_fuzzy_perfect_score_cex`.) -/
theorem matchName_score_construction {Lab : Type} (normalize : String → String)
    (es estd : String → List String → List (String × Nat)) (reg : Registry Lab)
    (inStr hx : String) (sc : Nat)
    (hb1 : ∀ p ∈ es (normalize inStr) (reg.hexByColor.map Prod.fst), p.2 ≤ 100)
    (hb2 : ∀ p ∈ estd (normalize inStr) (reg.hexByColor.map Prod.fst), p.2 ≤ 100)
    (hmiss : dlookup reg.hexByColor (normalize inStr) = none)
    (hrun : matchName normalize es estd reg inStr = MatchRet.ok hx sc) :
    sc ≤ 100 ∧ ∃ nm cnt,
      mostCommon1 (counterMerge
        (dictOf (es (normalize inStr) (reg.hexByColor.map Prod.fst)))
        (dictOf (estd (normalize inStr) (reg.hexByColor.map Prod.fst)))) =
          some (nm, cnt) ∧
      cnt = lookupScore (dictOf (es (normalize inStr) (reg.hexByColor.map Prod.fst))) nm +
        lookupScore (dictOf (estd (normalize inStr) (reg.hexByColor.map Prod.fst))) nm ∧
      sc = cnt / 2 ∧ dlookup reg.hexByColor nm = some hx := by
  rw [matchName_fuzzy_eq normalize es estd reg inStr hmiss] at hrun
  rcases hmc : mostCommon1 (counterMerge
      (dictOf (es (normalize inStr) (reg.hexByColor.map Prod.fst)))
      (dictOf (estd (normalize inStr) (reg.hexByColor.map Prod.fst)))) with _ | nc
  · rw [hmc] at hrun
    dsimp only at hrun
    exact MatchRet.noConfusion hrun
  · rw [hmc] at hrun
    dsimp only at hrun
    rcases hdl : dlookup reg.hexByColor nc.1 with _ | hx2
    · rw [hdl] at hrun
      dsimp only at hrun
      exact MatchRet.noConfusion hrun
    · rw [hdl] at hrun
      dsimp only at hrun
      injection hrun with e1 e2
      obtain ⟨nm, cnt⟩ := nc
      have hmem := mostCommon1_mem hmc
      have hnodup := keys_nodup_counterMerge
        (dictOf (estd (normalize inStr) (reg.hexByColor.map Prod.fst)))
        (dictOf (es (normalize inStr) (reg.hexByColor.map Prod.fst)))
        (dictOf_keys_nodup _)
      have hcnt : lookupScore (counterMerge
          (dictOf (es (normalize inStr) (reg.hexByColor.map Prod.fst)))
          (dictOf (estd (normalize inStr) (reg.hexByColor.map Prod.fst)))) nm = cnt :=
        lookupScore_of_mem_nodup hnodup hmem
      have hsplit := lookupScore_counterMerge
        (dictOf (estd (normalize inStr) (reg.hexByColor.map Prod.fst)))
        (dictOf (es (normalize inStr) (reg.hexByColor.map Prod.fst)))
        nm (dictOf_keys_nodup _)
      have hA100 : lookupScore
          (dictOf (es (normalize inStr) (reg.hexByColor.map Prod.fst))) nm ≤ 100 := by
        rcases hla : dlookup
            (dictOf (es (normalize inStr) (reg.hexByColor.map Prod.fst))) nm with _ | v
        · rw [lookupScore, hla]
          exact Nat.zero_le 100
        · rw [lookupScore, hla]
          exact hb1 (nm, v) (mem_dictOf (dlookup_mem hla))
      have hB100 : lookupScore
          (dictOf (estd (normalize inStr) (reg.hexByColor.map Prod.fst))) nm ≤ 100 := by
        rcases hlb : dlookup
            (dictOf (estd (normalize inStr) (reg.hexByColor.map Prod.fst))) nm with _ | v
        · rw [lookupScore, hlb]
          exact Nat.zero_le 100
        · rw [lookupScore, hlb]
          exact hb2 (nm, v) (mem_dictOf (dlookup_mem hlb))
      refine ⟨by omega, nm, cnt, rfl, by omega, e2.symm, e1 ▸ hdl⟩

/-- Witness for the amended C5: with one candidate scored 80 by each
scorer, the fuzzy path returns score (80 + 80) / 2 = 80. -/
theorem matchName_score_construction_witness :
    (80 : Nat) ≤ 100 ∧ ∃ nm cnt,
      mostCommon1 (counterMerge
        (dictOf (wExW80 (id "whitish") (wRegW.hexByColor.map Prod.fst)))
        (dictOf (wExW80 (id "whitish") (wRegW.hexByColor.map Prod.fst)))) =
          some (nm, cnt) ∧
      cnt = lookupScore (dictOf (wExW80 (id "whitish") (wRegW.hexByColor.map Prod.fst))) nm +
        lookupScore (dictOf (wExW80 (id "whitish") (wRegW.hexByColor.map Prod.fst))) nm ∧
      (80 : Nat) = cnt / 2 ∧ dlookup wRegW.hexByColor nm = some "ffffff" :=
  matchName_score_construction id wExW80 wExW80 wRegW "whitish" "ffffff" 80
    (by decide) (by decide) (by decide) (by decide)

/-- Counterexample to claim C8 as stated: `match_name` on an empty registry
does not signal a distinct "no color names registered" error; the empty
counter makes `counter.most_common(1)[0]` fail with a generic IndexError
(tint.py line 193).  Both `process.extract` calls return no candidates for
an empty choice list. -/
theorem matchName_empty_registry_cex :
    matchName id wEx0 wEx0 (emptyReg : Registry ℚ) "white" =
      MatchRet.raised PyError.indexError := by decide

/-- Claim C8 (amended): with zero registered names `match_name` fails with
the generic IndexError of `most_common(1)[0]`, not a distinct error; with
at least one registered name it never raises, provided the scorers return
at least one candidate drawn from the given (non-empty) choice list, as
fuzzywuzzy's `process.extract` does. -/
theorem matchName_nonempty_no_raise {Lab : Type} (normalize : String → String)
    (es estd : String → List String → List (String × Nat)) (reg : Registry Lab)
    (inStr : String) (hne : reg.hexByColor ≠ [])
    (hsub1 : ∀ p ∈ es (normalize inStr) (reg.hexByColor.map Prod.fst),
      p.1 ∈ reg.hexByColor.map Prod.fst)
    (hsub2 : ∀ p ∈ estd (normalize inStr) (reg.hexByColor.map Prod.fst),
      p.1 ∈ reg.hexByColor.map Prod.fst)
    (hnonempty : estd (normalize inStr) (reg.hexByColor.map Prod.fst) ≠ []) :
    ∃ hx sc, matchName normalize es estd reg inStr = MatchRet.ok hx sc := by
  rcases hdl : dlookup reg.hexByColor (normalize inStr) with _ | hx
  · rw [matchName_fuzzy_eq normalize es estd reg inStr hdl]
    have hCne : counterMerge
        (dictOf (es (normalize inStr) (reg.hexByColor.map Prod.fst)))
        (dictOf (estd (normalize inStr) (reg.hexByColor.map Prod.fst))) ≠ [] :=
      counterMerge_ne_nil_right _ _ (dictOf_ne_nil hnonempty)
    have hsome := mostCommon1_isSome hCne
    rcases hmc : mostCommon1 (counterMerge
        (dictOf (es (normalize inStr) (reg.hexByColor.map Prod.fst)))
        (dictOf (estd (normalize inStr) (reg.hexByColor.map Prod.fst)))) with _ | nc
    · rw [hmc] at hsome
      exact absurd hsome (by simp)
    · have hmem := mostCommon1_mem hmc
      have hkey : nc.1 ∈ reg.hexByColor.map Prod.fst := by
        have h1 : nc.1 ∈ (counterMerge
            (dictOf (es (normalize inStr) (reg.hexByColor.map Prod.fst)))
            (dictOf (estd (normalize inStr) (reg.hexByColor.map Prod.fst)))).map
              Prod.fst := List.mem_map.mpr ⟨nc, hmem, rfl⟩
        rcases keys_counterMerge_subset _ _ _ h1 with h2 | h2
        · rcases List.mem_map.mp (keys_dictOf_subset h2) with ⟨q, hq, he⟩
          exact he ▸ hsub1 q hq
        · rcases List.mem_map.mp (keys_dictOf_subset h2) with ⟨q, hq, he⟩
          exact he ▸ hsub2 q hq
      have hks := dlookup_isSome_of_mem_keys hkey
      rcases hdl2 : dlookup reg.hexByColor nc.1 with _ | hx2
      · rw [hdl2] at hks
        exact absurd hks (by simp)
      · refine ⟨hx2, nc.2 / 2, ?_⟩
        dsimp only
        rw [hdl2]
  · refine ⟨hx, 100, ?_⟩
    unfold matchName
    dsimp only
    rw [hdl]

/-- Witness for the amended C8: a one-colour registry with scorers
returning one in-registry candidate never raises. -/
theorem matchName_nonempty_no_raise_witness :
    ∃ hx sc, matchName id wExW wExW wRegW "whitish" = MatchRet.ok hx sc :=
  matchName_nonempty_no_raise id wExW wExW wRegW "whitish"
    (by decide) (by decide) (by decide) (by decide)
